import Mathlib

/-!
Shallow embedding of the go-cache repository.

Source files modelled here:
* `src/lru/lru.go` — the LRU cache (`Cache`, `New`, `Add`, `Get`,
  `RemoveOldest`, `Len`).
* the `ByteView` wrapper (`Len`, `ByteSlice`, `String`, `cloneBytes`).

Modelling decisions, each traceable to the Go source:

* Values: Go's `Value` interface has the single method `Len() int`.  The
  embedding is parametric in a value type `V` together with a size function
  `lenV : V → Nat`.  Because `lenV` is a pure function, every stored value
  reports a consistent `Len()` — exactly the consistency premise the spec
  places on callers; sizes are byte counts, hence nonnegative.
* `maxBytes` and `nbytes` are Go `int64` fields; they are modelled as
  unbounded `Int` (the claims under study do not concern 64-bit wraparound,
  which would need more than 2^63 bytes of cached data).
* The recency list `ll` (`container/list.List` of `*entry`) is a Lean list
  of `(key, value)` pairs, front = most recently used, back = least.
* The Go map `cache map[string]*list.Element` stores, per key, a pointer to
  that key's unique node.  In the embedding a node is identified by its key
  (key uniqueness is the bijection invariant proved below), so the map is
  modelled by its domain: the list of keys currently in the map.
* The eviction callback `OnEvicted` is modelled by a `Bool` flag recording
  whether a callback is configured, plus an explicit event trace: every
  operation returns the list of `(key, value)` pairs it removed, in removal
  order; the actual callback invocations are that trace when the flag is
  set and `[]` otherwise (`callbackCalls`).
* `Add`'s eviction loop `for c.maxBytes != 0 && c.maxBytes < c.nbytes`
  need not terminate in Go (once the cache is empty `RemoveOldest` is a
  no-op, so if the guard still holds the loop spins forever).  The loop is
  therefore modelled with fuel `c1.ll.length + 1`: after that many
  iterations the list is certainly empty and the state no longer changes,
  so the guard still holding at fuel 0 is exactly Go-level divergence,
  reported as `none`.  The event trace is accumulated even on the diverging
  path, since those callback invocations do happen before the loop spins.
-/

namespace GoCache

/-- Go `len(s)` for a string: its UTF-8 byte length, as `int64`. -/
def goLen (s : String) : Int := (s.utf8ByteSize : Int)

/-- `Cache` from `lru/lru.go`.  `ll` is the recency list (front = most
recently used); `cache` is the domain of the Go lookup map (nodes are
identified by key); `hasOnEvicted` records whether `OnEvicted` is non-nil. -/
structure Cache (V : Type) where
  maxBytes : Int
  nbytes : Int
  ll : List (String × V)
  cache : List String
  hasOnEvicted : Bool
deriving Repr, DecidableEq

variable {V : Type}

/-- Go `len(key) + value.Len()`: the byte contribution of one entry. -/
def entrySize (lenV : V → Nat) (e : String × V) : Int :=
  goLen e.1 + (lenV e.2 : Int)

/-- Sum of `len(key) + value.Len()` over a list of entries. -/
def sumBytes (lenV : V → Nat) (l : List (String × V)) : Int :=
  (l.map (entrySize lenV)).sum

/-- `New(maxBytes, onEvicted)`: fresh cache with zero entries and bytes. -/
def New (V : Type) (maxBytes : Int) (hasOnEvicted : Bool) : Cache V :=
  { maxBytes := maxBytes, nbytes := 0, ll := [], cache := [],
    hasOnEvicted := hasOnEvicted }

/-- `Cache.Len`: number of live entries (`c.ll.Len()` in Go). -/
def Cache.Len (c : Cache V) : Nat := c.ll.length

/-- `Cache.RemoveOldest`: take `ll.Back()`; if non-nil remove it from the
list, delete its key from the map, subtract its size from `nbytes`, and
(when configured) invoke the callback — returned here as the event list. -/
def Cache.RemoveOldest (lenV : V → Nat) (c : Cache V) :
    Cache V × List (String × V) :=
  match c.ll.getLast? with
  | none => (c, [])
  | some kv =>
      ({ c with ll := c.ll.dropLast,
                cache := c.cache.erase kv.1,
                nbytes := c.nbytes - (goLen kv.1 + (lenV kv.2 : Int)) },
       [kv])

/-- The eviction loop of `Add`, with fuel (see the header comment): while
`maxBytes != 0 && maxBytes < nbytes`, call `RemoveOldest`.  Returns `none`
when the Go loop diverges, together with the events emitted before that. -/
def runEvict (lenV : V → Nat) : Nat → Cache V → Option (Cache V) × List (String × V)
  | 0, c =>
      if c.maxBytes ≠ 0 ∧ c.maxBytes < c.nbytes then (none, []) else (some c, [])
  | fuel + 1, c =>
      if c.maxBytes ≠ 0 ∧ c.maxBytes < c.nbytes then
        let step := c.RemoveOldest lenV
        let rest := runEvict lenV fuel step.1
        (rest.1, step.2 ++ rest.2)
      else (some c, [])

/-- The insertion part of `Cache.Add`, before the eviction loop: if the
key is in the map, move its node to the front, adjust `nbytes` by the size
delta, and store the new value; otherwise push a fresh node to the front,
insert the key into the map, and add the full entry size.  (The `none`
inner branch — key in the map but absent from the list — is unreachable in
any well-formed state; it is Go dereferencing a detached list element.) -/
def addRaw (lenV : V → Nat) (c : Cache V) (key : String) (value : V) : Cache V :=
  if key ∈ c.cache then
    match c.ll.find? (fun p => p.1 == key) with
    | some kv =>
        { c with ll := (key, value) :: c.ll.eraseP (fun p => p.1 == key),
                 nbytes := c.nbytes + ((lenV value : Int) - (lenV kv.2 : Int)) }
    | none => c
  else
    { c with ll := (key, value) :: c.ll,
             cache := key :: c.cache,
             nbytes := c.nbytes + (goLen key + (lenV value : Int)) }

/-- `Cache.Add`: insert/update, then run the eviction loop. -/
def Cache.Add (lenV : V → Nat) (c : Cache V) (key : String) (value : V) :
    Option (Cache V) × List (String × V) :=
  runEvict lenV ((addRaw lenV c key value).ll.length + 1) (addRaw lenV c key value)

/-- `Cache.Get`: if the key is in the map, move its node to the front and
return its value with `ok = true`; otherwise return `(nil, false)` and
leave the cache untouched. -/
def Cache.Get (c : Cache V) (key : String) : Cache V × Option V :=
  if key ∈ c.cache then
    match c.ll.find? (fun p => p.1 == key) with
    | some kv =>
        ({ c with ll := kv :: c.ll.eraseP (fun p => p.1 == key) }, some kv.2)
    | none => (c, none)
  else (c, none)

/-- The callback invocations produced by an operation: its eviction events
when `OnEvicted` is configured, nothing otherwise. -/
def callbackCalls (c : Cache V) (evs : List (String × V)) : List (String × V) :=
  if c.hasOnEvicted then evs else []

/-- One client operation on the cache. -/
inductive Op (V : Type) where
  | add (key : String) (value : V)
  | get (key : String)
  | removeOldest
deriving Repr, DecidableEq

/-- Apply one operation: the resulting state (`none` = the operation never
returns) and the eviction events it emitted. -/
def applyOp (lenV : V → Nat) (c : Cache V) : Op V → Option (Cache V) × List (String × V)
  | .add k v => c.Add lenV k v
  | .get k => (some (c.Get k).1, [])
  | .removeOldest =>
      let r := c.RemoveOldest lenV
      (some r.1, r.2)

/-- Run a sequence of operations from a state, accumulating eviction
events; `none` as soon as one operation diverges. -/
def runFrom (lenV : V → Nat) : Cache V → List (Op V) → Option (Cache V × List (String × V))
  | c, [] => some (c, [])
  | c, op :: ops =>
      match applyOp lenV c op with
      | (some c', evs) =>
          match runFrom lenV c' ops with
          | some (c'', evs') => some (c'', evs ++ evs')
          | none => none
      | (none, _) => none

/-- Run a sequence of operations on a newly constructed cache. -/
def runOps (lenV : V → Nat) (maxBytes : Int) (cb : Bool) (ops : List (Op V)) :
    Option (Cache V × List (String × V)) :=
  runFrom lenV (New V maxBytes cb) ops

/-- Keys of a recency list, front first. -/
def keysOf (l : List (String × V)) : List String := l.map Prod.fst

/-- Well-formedness: keys in the recency list are pairwise distinct, the
map domain is (as a multiset) exactly those keys, and `nbytes` is the sum
of entry sizes — the accounting and bijection invariants. -/
def WF (lenV : V → Nat) (c : Cache V) : Prop :=
  (keysOf c.ll).Nodup ∧ List.Perm c.cache (keysOf c.ll) ∧
    c.nbytes = sumBytes lenV c.ll

/-! ### Ghost state for the recency law

To state "the evicted entry is the one whose most recent `Add` or
successful `Get` occurred earliest", the run of the program is augmented
with ghost data: a logical clock `now` (incremented after each operation)
and a journal `touch` that records, for each key, the time of its most
recent `Add` or successful `Get` (newest record first; lookup takes the
first hit).  The cache component evolves by exactly the operations above —
`touch` and `now` never influence it. -/

/-- A cache together with the ghost touch journal and clock. -/
structure TState (V : Type) where
  c : Cache V
  touch : List (String × Nat)
  now : Nat

/-- Time of the most recent touch of `k` (0 if never touched). -/
def touchD (t : List (String × Nat)) (k : String) : Nat :=
  match t.find? (fun p => p.1 == k) with
  | some p => p.2
  | none => 0

/-- Apply one operation, journalling touches: an `Add` and a successful
`Get` stamp their key with the current time. -/
def applyOpT (lenV : V → Nat) (s : TState V) : Op V → Option (TState V)
  | .add k v =>
      match (s.c.Add lenV k v).1 with
      | some c' => some ⟨c', (k, s.now) :: s.touch, s.now + 1⟩
      | none => none
  | .get k =>
      match (s.c.Get k).2 with
      | some _ => some ⟨(s.c.Get k).1, (k, s.now) :: s.touch, s.now + 1⟩
      | none => some ⟨(s.c.Get k).1, s.touch, s.now + 1⟩
  | .removeOldest => some ⟨(s.c.RemoveOldest lenV).1, s.touch, s.now + 1⟩

/-- Run a sequence of operations with the ghost journal. -/
def runFromT (lenV : V → Nat) : TState V → List (Op V) → Option (TState V)
  | s, [] => some s
  | s, op :: ops =>
      match applyOpT lenV s op with
      | some s' => runFromT lenV s' ops
      | none => none

/-- Ghost state of a newly constructed cache. -/
def initT (V : Type) (maxBytes : Int) (cb : Bool) : TState V :=
  ⟨New V maxBytes cb, [], 0⟩

/-- Recency invariant: along the list (front to back) the last-touch times
strictly decrease, and every live entry was touched before `now`. -/
def RInv (s : TState V) : Prop :=
  List.Pairwise (fun a b => touchD s.touch b.1 < touchD s.touch a.1) s.c.ll ∧
    ∀ kv ∈ s.c.ll, touchD s.touch kv.1 < s.now

/-! ### ByteView

Go slices alias: two `[]byte` values can share the same backing array, and
writing through one is visible through the other.  To make the defensive
copy in `ByteSlice` observable, slices are modelled as references into a
small store (`Heap`): a slice value is the index of its backing cell, and
mutation is `writeCell`.  `cloneBytes` (`make` + `copy`) allocates a fresh
cell holding the same contents.  Byte values are modelled as `Nat`s (their
numeric range plays no role in the copy law). -/

/-- The store of slice backing arrays. -/
structure Heap where
  cells : List (List Nat)
deriving Repr, DecidableEq

/-- Contents of cell `i` (out-of-range reads give `[]`). -/
def readCell (h : Heap) (i : Nat) : List Nat := h.cells.getD i []

/-- Overwrite cell `i` — a mutation of the slice that points there. -/
def writeCell (h : Heap) (i : Nat) (data : List Nat) : Heap :=
  { cells := h.cells.set i data }

/-- Allocate a fresh cell; returns the new heap and the cell's index. -/
def alloc (h : Heap) (data : List Nat) : Heap × Nat :=
  ({ cells := h.cells ++ [data] }, h.cells.length)

/-- `cloneBytes(b)`: `make([]byte, len(b))` then `copy` — a fresh slice
with the same contents. -/
def cloneBytes (h : Heap) (i : Nat) : Heap × Nat :=
  alloc h (readCell h i)

/-- `ByteView` wraps one byte slice (`b []byte`), here a cell reference. -/
structure ByteView where
  b : Nat
deriving Repr, DecidableEq

/-- `ByteView.Len`: `len(v.b)`. -/
def ByteView.Len (h : Heap) (v : ByteView) : Nat := (readCell h v.b).length

/-- `ByteView.ByteSlice`: `cloneBytes(v.b)` — a copy of the data as a
slice. -/
def ByteView.ByteSlice (h : Heap) (v : ByteView) : Heap × Nat :=
  cloneBytes h v.b

/-- `ByteView.String`: `string(v.b)` — Go copies the bytes into an
immutable string, modelled as the byte contents themselves. -/
def ByteView.String (h : Heap) (v : ByteView) : List Nat := readCell h v.b

/-! ## Basic lemmas about sizes and lookups -/

theorem goLen_nonneg (s : String) : 0 ≤ goLen s := Int.ofNat_nonneg _

theorem entrySize_nonneg (lenV : V → Nat) (e : String × V) :
    0 ≤ entrySize lenV e :=
  add_nonneg (goLen_nonneg e.1) (Int.ofNat_nonneg _)

theorem sumBytes_nil (lenV : V → Nat) :
    sumBytes lenV ([] : List (String × V)) = 0 := rfl

theorem sumBytes_cons (lenV : V → Nat) (e : String × V) (l : List (String × V)) :
    sumBytes lenV (e :: l) = entrySize lenV e + sumBytes lenV l := by
  simp [sumBytes]

theorem sumBytes_append (lenV : V → Nat) (l₁ l₂ : List (String × V)) :
    sumBytes lenV (l₁ ++ l₂) = sumBytes lenV l₁ + sumBytes lenV l₂ := by
  simp [sumBytes]

theorem sumBytes_perm (lenV : V → Nat) {l l' : List (String × V)}
    (h : List.Perm l l') : sumBytes lenV l = sumBytes lenV l' :=
  (h.map (entrySize lenV)).sum_eq

theorem sumBytes_nonneg (lenV : V → Nat) (l : List (String × V)) :
    0 ≤ sumBytes lenV l := by
  apply List.sum_nonneg
  intro x hx
  obtain ⟨e, _, rfl⟩ := List.mem_map.1 hx
  exact entrySize_nonneg lenV e

theorem entrySize_le_sumBytes (lenV : V → Nat) {e : String × V}
    {l : List (String × V)} (h : e ∈ l) : entrySize lenV e ≤ sumBytes lenV l := by
  induction l with
  | nil => cases h
  | cons a t ih =>
      rw [sumBytes_cons]
      rcases List.mem_cons.1 h with rfl | h'
      · exact le_add_of_nonneg_right (sumBytes_nonneg lenV t)
      · exact (ih h').trans (le_add_of_nonneg_left (entrySize_nonneg lenV a))

theorem keysOf_nil : keysOf ([] : List (String × V)) = [] := rfl

theorem keysOf_cons (a : String × V) (l : List (String × V)) :
    keysOf (a :: l) = a.1 :: keysOf l := rfl

theorem keysOf_append (l₁ l₂ : List (String × V)) :
    keysOf (l₁ ++ l₂) = keysOf l₁ ++ keysOf l₂ := List.map_append _ _ _

theorem find?_key_of_mem {key : String} {l : List (String × V)}
    (h : key ∈ keysOf l) :
    ∃ v, l.find? (fun p => p.1 == key) = some (key, v) := by
  induction l with
  | nil => cases h
  | cons a t ih =>
      by_cases hk : a.1 = key
      · refine ⟨a.2, ?_⟩
        rw [List.find?_cons_of_pos _ (by simp [hk])]
        rw [← hk, Prod.mk.eta]
      · rw [keysOf_cons, List.mem_cons] at h
        have ht : key ∈ keysOf t := by
          rcases h with h' | h'
          · exact absurd h'.symm hk
          · exact h'
        obtain ⟨v, hv⟩ := ih ht
        exact ⟨v, by rw [List.find?_cons_of_neg _ (by simp [hk]), hv]⟩

theorem find?_eq_none_of_not_mem {key : String} {l : List (String × V)}
    (h : key ∉ keysOf l) : l.find? (fun p => p.1 == key) = none := by
  induction l with
  | nil => rfl
  | cons a t ih =>
      rw [keysOf_cons, List.mem_cons] at h
      push_neg at h
      rw [List.find?_cons_of_neg _ (by simp; exact fun hk => h.1 hk.symm), ih h.2]

theorem perm_cons_eraseP {α : Type} {p : α → Bool} {l : List α} {kv : α}
    (h : l.find? p = some kv) : List.Perm l (kv :: l.eraseP p) := by
  induction l with
  | nil => simp at h
  | cons a t ih =>
      by_cases hp : p a
      · rw [List.find?_cons_of_pos _ hp] at h
        cases h
        rw [List.eraseP_cons_of_pos hp]
      · rw [List.find?_cons_of_neg _ (by simpa using hp)] at h
        rw [List.eraseP_cons_of_neg (by simpa using hp)]
        exact ((ih h).cons a).trans (List.Perm.swap kv a _)

/-! ## Characterizations of the operations -/

theorem RemoveOldest_nil (lenV : V → Nat) {c : Cache V} (h : c.ll = []) :
    c.RemoveOldest lenV = (c, []) := by
  simp [Cache.RemoveOldest, h]

theorem RemoveOldest_eq (lenV : V → Nat) {c : Cache V} (h : c.ll ≠ []) :
    c.RemoveOldest lenV =
      ({ c with ll := c.ll.dropLast,
                cache := c.cache.erase (c.ll.getLast h).1,
                nbytes := c.nbytes -
                  (goLen (c.ll.getLast h).1 + (lenV (c.ll.getLast h).2 : Int)) },
       [c.ll.getLast h]) := by
  simp [Cache.RemoveOldest, List.getLast?_eq_getLast _ h]

theorem RemoveOldest_ll (lenV : V → Nat) (c : Cache V) :
    ((c.RemoveOldest lenV).1).ll = c.ll.dropLast := by
  by_cases h : c.ll = []
  · rw [RemoveOldest_nil lenV h, h]; rfl
  · rw [RemoveOldest_eq lenV h]

theorem RemoveOldest_fields (lenV : V → Nat) (c : Cache V) :
    ((c.RemoveOldest lenV).1).maxBytes = c.maxBytes ∧
      ((c.RemoveOldest lenV).1).hasOnEvicted = c.hasOnEvicted := by
  by_cases h : c.ll = []
  · rw [RemoveOldest_nil lenV h]; exact ⟨rfl, rfl⟩
  · rw [RemoveOldest_eq lenV h]; exact ⟨rfl, rfl⟩

theorem RemoveOldest_nbytes (lenV : V → Nat) {c : Cache V}
    (h : c.nbytes = sumBytes lenV c.ll) :
    ((c.RemoveOldest lenV).1).nbytes = sumBytes lenV ((c.RemoveOldest lenV).1).ll := by
  by_cases hll : c.ll = []
  · rw [RemoveOldest_nil lenV hll]; exact h
  · rw [RemoveOldest_eq lenV hll]
    have hsplit : c.ll.dropLast ++ [c.ll.getLast hll] = c.ll :=
      List.dropLast_append_getLast hll
    have h2 := congrArg (sumBytes lenV) hsplit
    rw [sumBytes_append, sumBytes_cons, sumBytes_nil] at h2
    have hent : entrySize lenV (c.ll.getLast hll) =
        goLen (c.ll.getLast hll).1 + (lenV (c.ll.getLast hll).2 : Int) := rfl
    show c.nbytes -
        (goLen (c.ll.getLast hll).1 + (lenV (c.ll.getLast hll).2 : Int)) =
      sumBytes lenV c.ll.dropLast
    rw [h]
    linarith [h2, hent]

theorem WF_New (lenV : V → Nat) (mb : Int) (cb : Bool) : WF lenV (New V mb cb) :=
  ⟨List.nodup_nil, List.Perm.refl _, rfl⟩

theorem WF_RemoveOldest (lenV : V → Nat) {c : Cache V} (hw : WF lenV c) :
    WF lenV (c.RemoveOldest lenV).1 := by
  obtain ⟨hnd, hperm, hsum⟩ := hw
  by_cases h : c.ll = []
  · rw [RemoveOldest_nil lenV h]; exact ⟨hnd, hperm, hsum⟩
  · refine ⟨?_, ?_, RemoveOldest_nbytes lenV hsum⟩
    · rw [RemoveOldest_ll]
      exact ((List.dropLast_sublist c.ll).map Prod.fst).nodup hnd
    · rw [RemoveOldest_eq lenV h]
      have hsplit : c.ll.dropLast ++ [c.ll.getLast h] = c.ll :=
        List.dropLast_append_getLast h
      have hk : keysOf c.ll = keysOf c.ll.dropLast ++ [(c.ll.getLast h).1] := by
        have := congrArg keysOf hsplit
        rw [keysOf_append, keysOf_cons, keysOf_nil] at this
        exact this.symm
      have hnm : (c.ll.getLast h).1 ∉ keysOf c.ll.dropLast := by
        rw [hk] at hnd
        rcases List.nodup_append.1 hnd with ⟨-, -, hdisj⟩
        exact fun hmem => hdisj hmem (List.mem_singleton_self _)
      have herase : (keysOf c.ll).erase (c.ll.getLast h).1 = keysOf c.ll.dropLast := by
        rw [hk, List.erase_append_right _ hnm, List.erase_cons_head, List.append_nil]
      exact herase ▸ hperm.erase (c.ll.getLast h).1

theorem Get_not_mem {c : Cache V} {key : String} (h : key ∉ c.cache) :
    c.Get key = (c, none) := by
  simp [Cache.Get, h]

theorem Get_mem {lenV : V → Nat} {c : Cache V} {key : String} (hw : WF lenV c)
    (h : key ∈ c.cache) :
    ∃ v, c.ll.find? (fun p => p.1 == key) = some (key, v) ∧
      c.Get key =
        ({ c with ll := (key, v) :: c.ll.eraseP (fun p => p.1 == key) }, some v) := by
  have hmem : key ∈ keysOf c.ll := (hw.2.1.mem_iff).1 h
  obtain ⟨v, hv⟩ := find?_key_of_mem hmem
  exact ⟨v, hv, by simp [Cache.Get, h, hv]⟩

theorem WF_Get (lenV : V → Nat) {c : Cache V} (hw : WF lenV c) (key : String) :
    WF lenV (c.Get key).1 := by
  by_cases h : key ∈ c.cache
  · obtain ⟨v, hv, heq⟩ := Get_mem hw h
    obtain ⟨hnd, hperm, hsum⟩ := hw
    have hp : List.Perm c.ll ((key, v) :: c.ll.eraseP (fun p => p.1 == key)) :=
      perm_cons_eraseP hv
    rw [heq]
    exact ⟨(hp.map Prod.fst).nodup hnd, hperm.trans (hp.map Prod.fst),
      hsum.trans (sumBytes_perm lenV hp)⟩
  · rw [Get_not_mem h]; exact hw

theorem addRaw_of_find {lenV : V → Nat} {c : Cache V} {key : String} {v : V}
    (value : V) (h : key ∈ c.cache)
    (hv : c.ll.find? (fun p => p.1 == key) = some (key, v)) :
    addRaw lenV c key value =
      { c with ll := (key, value) :: c.ll.eraseP (fun p => p.1 == key),
               nbytes := c.nbytes + ((lenV value : Int) - (lenV v : Int)) } := by
  simp [addRaw, h, hv]

theorem addRaw_not_mem {lenV : V → Nat} {c : Cache V} {key : String}
    (value : V) (h : key ∉ c.cache) :
    addRaw lenV c key value =
      { c with ll := (key, value) :: c.ll,
               cache := key :: c.cache,
               nbytes := c.nbytes + (goLen key + (lenV value : Int)) } := by
  simp [addRaw, h]

theorem addRaw_fields (lenV : V → Nat) (c : Cache V) (key : String) (value : V) :
    (addRaw lenV c key value).maxBytes = c.maxBytes ∧
      (addRaw lenV c key value).hasOnEvicted = c.hasOnEvicted := by
  by_cases h : key ∈ c.cache
  · rcases hfind : c.ll.find? (fun p => p.1 == key) with _ | kv <;>
      simp [addRaw, h, hfind]
  · simp [addRaw, h]

theorem WF_addRaw (lenV : V → Nat) {c : Cache V} (hw : WF lenV c)
    (key : String) (value : V) : WF lenV (addRaw lenV c key value) := by
  obtain ⟨hnd, hperm, hsum⟩ := hw
  by_cases h : key ∈ c.cache
  · have hmem : key ∈ keysOf c.ll := (hperm.mem_iff).1 h
    obtain ⟨v, hv⟩ := find?_key_of_mem hmem
    have hp : List.Perm c.ll ((key, v) :: c.ll.eraseP (fun p => p.1 == key)) :=
      perm_cons_eraseP hv
    rw [addRaw_of_find value h hv]
    refine ⟨?_, ?_, ?_⟩
    · have h1 : (keysOf ((key, v) :: c.ll.eraseP (fun p => p.1 == key))).Nodup :=
        (hp.map Prod.fst).nodup hnd
      exact h1
    · exact hperm.trans (hp.map Prod.fst)
    · have hsplit : sumBytes lenV c.ll =
          entrySize lenV (key, v) +
            sumBytes lenV (c.ll.eraseP (fun p => p.1 == key)) := by
        rw [sumBytes_perm lenV hp, sumBytes_cons]
      show c.nbytes + ((lenV value : Int) - (lenV v : Int)) =
        sumBytes lenV ((key, value) :: c.ll.eraseP (fun p => p.1 == key))
      rw [sumBytes_cons, hsum, hsplit]
      simp only [entrySize]
      ring
  · have hmem : key ∉ keysOf c.ll := fun hk => h ((hperm.mem_iff).2 hk)
    rw [addRaw_not_mem value h]
    refine ⟨?_, ?_, ?_⟩
    · rw [keysOf_cons]
      exact List.Nodup.cons hmem hnd
    · rw [keysOf_cons]
      exact hperm.cons key
    · show c.nbytes + (goLen key + (lenV value : Int)) =
        sumBytes lenV ((key, value) :: c.ll)
      rw [sumBytes_cons, hsum]
      simp only [entrySize]
      ring

theorem runEvict_of_guard_false {lenV : V → Nat} {c : Cache V}
    (h : ¬(c.maxBytes ≠ 0 ∧ c.maxBytes < c.nbytes)) (fuel : Nat) :
    runEvict lenV fuel c = (some c, []) := by
  cases fuel <;> simp [runEvict, h]

theorem runEvict_succ_of_guard_true {lenV : V → Nat} {c : Cache V}
    (h : c.maxBytes ≠ 0 ∧ c.maxBytes < c.nbytes) (fuel : Nat) :
    runEvict lenV (fuel + 1) c =
      ((runEvict lenV fuel (c.RemoveOldest lenV).1).1,
        (c.RemoveOldest lenV).2 ++ (runEvict lenV fuel (c.RemoveOldest lenV).1).2) := by
  simp [runEvict, h]

theorem runEvict_zero_of_guard_true {lenV : V → Nat} {c : Cache V}
    (h : c.maxBytes ≠ 0 ∧ c.maxBytes < c.nbytes) :
    runEvict lenV 0 c = (none, []) := by
  simp [runEvict, h]

theorem WF_runEvict (lenV : V → Nat) :
    ∀ (fuel : Nat) {c c' : Cache V}, WF lenV c →
      (runEvict lenV fuel c).1 = some c' → WF lenV c' := by
  intro fuel
  induction fuel with
  | zero =>
      intro c c' hw h
      by_cases hg : c.maxBytes ≠ 0 ∧ c.maxBytes < c.nbytes
      · rw [runEvict_zero_of_guard_true hg] at h; cases h
      · rw [runEvict_of_guard_false hg] at h
        cases h; exact hw
  | succ fuel ih =>
      intro c c' hw h
      by_cases hg : c.maxBytes ≠ 0 ∧ c.maxBytes < c.nbytes
      · rw [runEvict_succ_of_guard_true hg] at h
        exact ih (WF_RemoveOldest lenV hw) h
      · rw [runEvict_of_guard_false hg] at h
        cases h; exact hw

theorem runEvict_fields (lenV : V → Nat) :
    ∀ (fuel : Nat) {c c' : Cache V}, (runEvict lenV fuel c).1 = some c' →
      c'.maxBytes = c.maxBytes ∧ c'.hasOnEvicted = c.hasOnEvicted := by
  intro fuel
  induction fuel with
  | zero =>
      intro c c' h
      by_cases hg : c.maxBytes ≠ 0 ∧ c.maxBytes < c.nbytes
      · rw [runEvict_zero_of_guard_true hg] at h; cases h
      · rw [runEvict_of_guard_false hg] at h
        cases h; exact ⟨rfl, rfl⟩
  | succ fuel ih =>
      intro c c' h
      by_cases hg : c.maxBytes ≠ 0 ∧ c.maxBytes < c.nbytes
      · rw [runEvict_succ_of_guard_true hg] at h
        obtain ⟨h1, h2⟩ := ih h
        obtain ⟨h3, h4⟩ := RemoveOldest_fields lenV c
        exact ⟨h1.trans h3, h2.trans h4⟩
      · rw [runEvict_of_guard_false hg] at h
        cases h; exact ⟨rfl, rfl⟩

theorem runEvict_some_budget (lenV : V → Nat) :
    ∀ (fuel : Nat) {c c' : Cache V}, (runEvict lenV fuel c).1 = some c' →
      c'.maxBytes = 0 ∨ c'.nbytes ≤ c'.maxBytes := by
  intro fuel
  induction fuel with
  | zero =>
      intro c c' h
      by_cases hg : c.maxBytes ≠ 0 ∧ c.maxBytes < c.nbytes
      · rw [runEvict_zero_of_guard_true hg] at h; cases h
      · rw [runEvict_of_guard_false hg] at h
        cases h
        push_neg at hg
        by_cases h0 : c.maxBytes = 0
        · exact Or.inl h0
        · exact Or.inr (hg h0)
  | succ fuel ih =>
      intro c c' h
      by_cases hg : c.maxBytes ≠ 0 ∧ c.maxBytes < c.nbytes
      · rw [runEvict_succ_of_guard_true hg] at h
        exact ih h
      · rw [runEvict_of_guard_false hg] at h
        cases h
        push_neg at hg
        by_cases h0 : c.maxBytes = 0
        · exact Or.inl h0
        · exact Or.inr (hg h0)

theorem runEvict_total (lenV : V → Nat) :
    ∀ (fuel : Nat) {c : Cache V}, c.nbytes = sumBytes lenV c.ll →
      0 ≤ c.maxBytes → c.ll.length ≤ fuel →
      ((runEvict lenV fuel c).1).isSome := by
  intro fuel
  induction fuel with
  | zero =>
      intro c hacc hmb hlen
      have hll : c.ll = [] := List.length_eq_zero.1 (Nat.le_zero.1 hlen)
      have hnb : c.nbytes = 0 := by rw [hacc, hll, sumBytes_nil]
      have hg : ¬(c.maxBytes ≠ 0 ∧ c.maxBytes < c.nbytes) := by
        rintro ⟨h0, hlt⟩
        rw [hnb] at hlt
        exact absurd hmb (not_le.2 hlt)
      rw [runEvict_of_guard_false hg]
      rfl
  | succ fuel ih =>
      intro c hacc hmb hlen
      by_cases hg : c.maxBytes ≠ 0 ∧ c.maxBytes < c.nbytes
      · have hll : c.ll ≠ [] := by
          intro hnil
          have hnb : c.nbytes = 0 := by rw [hacc, hnil, sumBytes_nil]
          rw [hnb] at hg
          exact absurd hmb (not_le.2 hg.2)
        rw [runEvict_succ_of_guard_true hg]
        refine ih (RemoveOldest_nbytes lenV hacc) ?_ ?_
        · rw [(RemoveOldest_fields lenV c).1]; exact hmb
        · rw [RemoveOldest_ll, List.length_dropLast]
          have : 1 ≤ c.ll.length := List.length_pos.2 hll
          omega
      · rw [runEvict_of_guard_false hg]
        rfl

theorem Add_eq (lenV : V → Nat) (c : Cache V) (key : String) (value : V) :
    c.Add lenV key value =
      runEvict lenV ((addRaw lenV c key value).ll.length + 1)
        (addRaw lenV c key value) := rfl

theorem WF_Add (lenV : V → Nat) {c c' : Cache V} (hw : WF lenV c)
    {key : String} {value : V} (h : (c.Add lenV key value).1 = some c') :
    WF lenV c' :=
  WF_runEvict lenV _ (WF_addRaw lenV hw key value) h

theorem Add_total (lenV : V → Nat) {c : Cache V} (hw : WF lenV c)
    (hmb : 0 ≤ c.maxBytes) (key : String) (value : V) :
    ((c.Add lenV key value).1).isSome := by
  rw [Add_eq]
  have hw' := WF_addRaw lenV hw key value
  have hmb' : 0 ≤ (addRaw lenV c key value).maxBytes := by
    rw [(addRaw_fields lenV c key value).1]; exact hmb
  exact runEvict_total lenV _ hw'.2.2 hmb' (Nat.le_succ _)

theorem Add_fields (lenV : V → Nat) {c c' : Cache V} {key : String} {value : V}
    (h : (c.Add lenV key value).1 = some c') :
    c'.maxBytes = c.maxBytes ∧ c'.hasOnEvicted = c.hasOnEvicted := by
  rw [Add_eq] at h
  obtain ⟨h1, h2⟩ := runEvict_fields lenV _ h
  obtain ⟨h3, h4⟩ := addRaw_fields lenV c key value
  exact ⟨h1.trans h3, h2.trans h4⟩

theorem Get_fields (c : Cache V) (key : String) :
    ((c.Get key).1).maxBytes = c.maxBytes ∧
      ((c.Get key).1).hasOnEvicted = c.hasOnEvicted ∧
      ((c.Get key).1).nbytes = c.nbytes ∧ ((c.Get key).1).cache = c.cache := by
  by_cases h : key ∈ c.cache
  · rcases hfind : c.ll.find? (fun p => p.1 == key) with _ | kv <;>
      simp [Cache.Get, h, hfind]
  · simp [Cache.Get, h]

theorem Add_zero (lenV : V → Nat) {c : Cache V} (h : c.maxBytes = 0)
    (key : String) (value : V) :
    c.Add lenV key value = (some (addRaw lenV c key value), []) := by
  rw [Add_eq]
  exact runEvict_of_guard_false
    (fun hg => hg.1 (((addRaw_fields lenV c key value).1).trans h)) _

theorem WF_applyOp (lenV : V → Nat) {c c' : Cache V} {op : Op V}
    (hw : WF lenV c) (h : (applyOp lenV c op).1 = some c') : WF lenV c' := by
  cases op with
  | add k v => exact WF_Add lenV hw h
  | get k =>
      have h' : c' = (c.Get k).1 := (Option.some.inj h).symm
      rw [h']; exact WF_Get lenV hw k
  | removeOldest =>
      have h' : c' = (c.RemoveOldest lenV).1 := (Option.some.inj h).symm
      rw [h']; exact WF_RemoveOldest lenV hw

theorem applyOp_fields (lenV : V → Nat) {c c' : Cache V} {op : Op V}
    (h : (applyOp lenV c op).1 = some c') :
    c'.maxBytes = c.maxBytes ∧ c'.hasOnEvicted = c.hasOnEvicted := by
  cases op with
  | add k v => exact Add_fields lenV h
  | get k =>
      have h' : c' = (c.Get k).1 := (Option.some.inj h).symm
      rw [h']; exact ⟨(Get_fields c k).1, (Get_fields c k).2.1⟩
  | removeOldest =>
      have h' : c' = (c.RemoveOldest lenV).1 := (Option.some.inj h).symm
      rw [h']; exact RemoveOldest_fields lenV c

theorem runFrom_cons (lenV : V → Nat) (c : Cache V) (op : Op V) (ops : List (Op V)) :
    runFrom lenV c (op :: ops) =
      match applyOp lenV c op with
      | (some c1, evs) =>
          match runFrom lenV c1 ops with
          | some (c2, evs2) => some (c2, evs ++ evs2)
          | none => none
      | (none, _) => none := rfl

theorem runFrom_WF (lenV : V → Nat) :
    ∀ (ops : List (Op V)) {c c' : Cache V} {evs : List (String × V)},
      WF lenV c → runFrom lenV c ops = some (c', evs) → WF lenV c' := by
  intro ops
  induction ops with
  | nil =>
      intro c c' evs hw h
      cases h
      exact hw
  | cons op ops ih =>
      intro c c' evs hw h
      rw [runFrom_cons] at h
      rcases hop : applyOp lenV c op with ⟨r, evs1⟩
      rcases r with _ | c1
      · rw [hop] at h; cases h
      · rw [hop] at h
        dsimp only at h
        rcases hrun : runFrom lenV c1 ops with _ | ⟨c2, evs2⟩
        · rw [hrun] at h; cases h
        · rw [hrun] at h
          cases h
          have h1 : (applyOp lenV c op).1 = some c1 := by rw [hop]
          exact ih (WF_applyOp lenV hw h1) hrun

theorem runFrom_fields (lenV : V → Nat) :
    ∀ (ops : List (Op V)) {c c' : Cache V} {evs : List (String × V)},
      runFrom lenV c ops = some (c', evs) →
      c'.maxBytes = c.maxBytes ∧ c'.hasOnEvicted = c.hasOnEvicted := by
  intro ops
  induction ops with
  | nil =>
      intro c c' evs h
      cases h
      exact ⟨rfl, rfl⟩
  | cons op ops ih =>
      intro c c' evs h
      rw [runFrom_cons] at h
      rcases hop : applyOp lenV c op with ⟨r, evs1⟩
      rcases r with _ | c1
      · rw [hop] at h; cases h
      · rw [hop] at h
        dsimp only at h
        rcases hrun : runFrom lenV c1 ops with _ | ⟨c2, evs2⟩
        · rw [hrun] at h; cases h
        · rw [hrun] at h
          cases h
          have h1 : (applyOp lenV c op).1 = some c1 := by rw [hop]
          obtain ⟨ha, hb⟩ := applyOp_fields lenV h1
          obtain ⟨hc, hd⟩ := ih hrun
          exact ⟨hc.trans ha, hd.trans hb⟩

theorem runOps_WF (lenV : V → Nat) {mb : Int} {cb : Bool} {ops : List (Op V)}
    {c : Cache V} {evs : List (String × V)}
    (h : runOps lenV mb cb ops = some (c, evs)) : WF lenV c :=
  runFrom_WF lenV ops (WF_New lenV mb cb) h

theorem runOps_fields (lenV : V → Nat) {mb : Int} {cb : Bool} {ops : List (Op V)}
    {c : Cache V} {evs : List (String × V)}
    (h : runOps lenV mb cb ops = some (c, evs)) :
    c.maxBytes = mb ∧ c.hasOnEvicted = cb :=
  runFrom_fields lenV ops h

/-! ## Claim theorems -/

/-- C1.  Accounting invariant: after every sequence of `Add`/`Get`/
`RemoveOldest` operations from a newly constructed cache that returns
(every stored value reports the consistent size `lenV`), `nbytes` equals
the sum of `len(key) + value.Len()` over all live entries.  "After every
operation" is covered because `ops` ranges over all sequences, hence over
every prefix of any longer sequence. -/
theorem accounting_invariant (lenV : V → Nat) (mb : Int) (cb : Bool)
    (ops : List (Op V)) (c : Cache V) (evs : List (String × V))
    (h : runOps lenV mb cb ops = some (c, evs)) :
    c.nbytes = sumBytes lenV c.ll :=
  (runOps_WF lenV h).2.2

theorem accounting_invariant_witness :
    ∃ c evs, runOps List.length 10 false
        [Op.add "a" [1, 2], Op.get "a", Op.add "b" [3]] = some (c, evs) ∧
      c.nbytes = sumBytes List.length c.ll :=
  ⟨_, _, rfl, accounting_invariant List.length 10 false
    [Op.add "a" [1, 2], Op.get "a", Op.add "b" [3]] _ _ rfl⟩

/-- C8.  Bijection invariant: after every operation sequence that returns,
the key set of the lookup map equals the key set of the recency list,
every live key has exactly one node (the list keys are pairwise distinct),
and the map has one entry per key.  (A map entry "points to" its key's
unique node: in the embedding a node is identified by its key, which is
unambiguous precisely because of the uniqueness proved here.) -/
theorem bijection_invariant (lenV : V → Nat) (mb : Int) (cb : Bool)
    (ops : List (Op V)) (c : Cache V) (evs : List (String × V))
    (h : runOps lenV mb cb ops = some (c, evs)) :
    (∀ k, k ∈ c.cache ↔ k ∈ keysOf c.ll) ∧
      (keysOf c.ll).Nodup ∧ c.cache.Nodup := by
  obtain ⟨hnd, hperm, -⟩ := runOps_WF lenV h
  exact ⟨fun k => hperm.mem_iff, hnd, hperm.symm.nodup hnd⟩

theorem bijection_invariant_witness :
    ∃ c evs, runOps List.length 10 false
        [Op.add "x" [1], Op.add "y" [2, 3], Op.removeOldest] = some (c, evs) ∧
      ((∀ k, k ∈ c.cache ↔ k ∈ keysOf c.ll) ∧
        (keysOf c.ll).Nodup ∧ c.cache.Nodup) :=
  ⟨_, _, rfl, bijection_invariant List.length 10 false
    [Op.add "x" [1], Op.add "y" [2, 3], Op.removeOldest] _ _ rfl⟩

/-- C3.  Budget invariant: on a cache constructed with `maxBytes > 0`,
after any `Add` on any reachable state, the `Add` returns and
`nbytes ≤ maxBytes` holds — the eviction loop only exits once the guard
`maxBytes < nbytes` fails (the over-budget allowance in the spec is never
needed: an oversized entry is itself evicted, see C9). -/
theorem budget_invariant (lenV : V → Nat) (mb : Int) (cb : Bool)
    (ops : List (Op V)) (c : Cache V) (evs : List (String × V))
    (hmb : 0 < mb) (h : runOps lenV mb cb ops = some (c, evs))
    (key : String) (value : V) :
    ∃ c', (c.Add lenV key value).1 = some c' ∧ c'.nbytes ≤ mb := by
  have hw := runOps_WF lenV h
  have hfield := (runOps_fields lenV h).1
  have htot := Add_total lenV hw (by rw [hfield]; exact le_of_lt hmb) key value
  obtain ⟨c', hc'⟩ := Option.isSome_iff_exists.1 htot
  refine ⟨c', hc', ?_⟩
  have hre : (runEvict lenV ((addRaw lenV c key value).ll.length + 1)
      (addRaw lenV c key value)).1 = some c' := by
    rw [← Add_eq]; exact hc'
  have hbud := runEvict_some_budget lenV _ hre
  have hmax : c'.maxBytes = mb := ((Add_fields lenV hc').1).trans hfield
  rcases hbud with h0 | hle
  · rw [hmax] at h0; exact absurd h0 (ne_of_gt hmb)
  · rw [hmax] at hle; exact hle

theorem budget_invariant_witness :
    ∃ c evs, runOps List.length 5 false [Op.add "a" [1]] = some (c, evs) ∧
      ∃ c', (c.Add List.length "b" [9, 9, 9, 9, 9, 9]).1 = some c' ∧
        c'.nbytes ≤ 5 :=
  ⟨_, _, rfl,
    budget_invariant List.length 5 false [Op.add "a" [1]] _ _ (by decide) rfl
      "b" [9, 9, 9, 9, 9, 9]⟩

/-- C5 counterexample.  The claim says `Add` terminates for every
`maxBytes`, including negative values.  It does not: with
`maxBytes = -1`, after `Add` inserts `("a", [0])` the guard
`maxBytes != 0 && maxBytes < nbytes` stays true even once eviction has
emptied the cache (`-1 < 0`), so the Go loop never exits — in the
embedding, the run of the eviction loop reports divergence (`none`). -/
theorem add_nonterminating_counterexample :
    ((New (List Nat) (-1) false).Add List.length "a" [0]).1 = none := rfl

/-- C5 amended.  Totality of `Add` holds for every `maxBytes ≥ 0` (on any
reachable state, for every key and sized value); for `maxBytes < 0` the
eviction loop inside `Add` does not terminate once the cache empties. -/
theorem add_total_nonneg (lenV : V → Nat) (mb : Int) (cb : Bool)
    (ops : List (Op V)) (c : Cache V) (evs : List (String × V))
    (hmb : 0 ≤ mb) (h : runOps lenV mb cb ops = some (c, evs))
    (key : String) (value : V) :
    ∃ c', (c.Add lenV key value).1 = some c' :=
  Option.isSome_iff_exists.1
    (Add_total lenV (runOps_WF lenV h)
      (by rw [(runOps_fields lenV h).1]; exact hmb) key value)

theorem add_total_nonneg_witness :
    ∃ c evs, runOps List.length 0 false [Op.add "a" [1]] = some (c, evs) ∧
      ∃ c', (c.Add List.length "b" [2]).1 = some c' :=
  ⟨_, _, rfl, add_total_nonneg List.length 0 false [Op.add "a" [1]] _ _
    (by decide) rfl "b" [2]⟩

/-- C4 counterexample.  The claim says any `maxBytes ≤ 0` disables
automatic eviction.  The guard only tests `maxBytes != 0`, so with
`maxBytes = -1` a single `Add` of `("b", [7])` evicts that very entry and
(callback configured) invokes the callback on it. -/
theorem negative_maxBytes_evicts_counterexample :
    (-1 : Int) ≤ 0 ∧
      ((New (List Nat) (-1) true).Add List.length "b" [7]).2 = [("b", [7])] ∧
      callbackCalls (New (List Nat) (-1) true)
        (((New (List Nat) (-1) true).Add List.length "b" [7]).2) =
        [("b", [7])] :=
  ⟨by decide, rfl, rfl⟩

theorem runFrom_zero_no_evict (lenV : V → Nat) :
    ∀ (ops : List (Op V)) (c : Cache V), c.maxBytes = 0 →
      (∀ op ∈ ops, op ≠ Op.removeOldest) →
      ∃ c', runFrom lenV c ops = some (c', []) := by
  intro ops
  induction ops with
  | nil => intro c _ _; exact ⟨c, rfl⟩
  | cons op ops ih =>
      intro c h0 hops
      cases op with
      | add k v =>
          have happ : applyOp lenV c (Op.add k v) =
              (some (addRaw lenV c k v), []) := Add_zero lenV h0 k v
          have h0' : (addRaw lenV c k v).maxBytes = 0 :=
            ((addRaw_fields lenV c k v).1).trans h0
          obtain ⟨c', hc'⟩ := ih (addRaw lenV c k v) h0'
            (fun o ho => hops o (List.mem_cons_of_mem _ ho))
          refine ⟨c', ?_⟩
          rw [runFrom_cons, happ]
          dsimp only
          rw [hc']
          rfl
      | get k =>
          have happ : applyOp lenV c (Op.get k) = (some (c.Get k).1, []) := rfl
          obtain ⟨c', hc'⟩ := ih (c.Get k).1 (((Get_fields c k).1).trans h0)
            (fun o ho => hops o (List.mem_cons_of_mem _ ho))
          refine ⟨c', ?_⟩
          rw [runFrom_cons, happ]
          dsimp only
          rw [hc']
          rfl
      | removeOldest =>
          exact absurd rfl (hops Op.removeOldest (List.mem_cons_self _ _))

/-- C4 amended.  Only `maxBytes = 0` disables automatic eviction: for
every sequence of `Add` and `Get` operations on a cache constructed with
`maxBytes = 0`, every operation returns, no entry is ever removed, and no
eviction event (hence no callback invocation) is ever produced — the
event trace of the whole run is empty.  (For negative `maxBytes` the code
evicts and then diverges, see the counterexample.) -/
theorem zero_maxBytes_no_eviction (lenV : V → Nat) (cb : Bool)
    (ops : List (Op V)) (hops : ∀ op ∈ ops, op ≠ Op.removeOldest) :
    ∃ c, runOps lenV 0 cb ops = some (c, []) :=
  runFrom_zero_no_evict lenV ops (New V 0 cb) rfl hops

theorem zero_maxBytes_no_eviction_witness :
    ∃ c, runOps List.length 0 true
        [Op.add "a" [1], Op.add "b" [2], Op.get "a"] = some (c, []) :=
  zero_maxBytes_no_eviction List.length true _ (by decide)

/-- C7.  `Get` semantics: on every reachable state, if the key is absent
`Get` returns a not-found indicator and leaves the whole cache state
untouched; if the key is present, `Get` returns the currently stored value
with a found indicator and moves that key's node to the front of the
recency list, changing nothing else (`nbytes`, map, `maxBytes`, callback
flag are typed unchanged in the record update, and the entries are a
permutation of the old ones). -/
theorem get_semantics (lenV : V → Nat) (mb : Int) (cb : Bool)
    (ops : List (Op V)) (c : Cache V) (evs : List (String × V))
    (h : runOps lenV mb cb ops = some (c, evs)) (key : String) :
    (key ∉ c.cache → c.Get key = (c, none)) ∧
      (key ∈ c.cache →
        ∃ v, c.ll.find? (fun p => p.1 == key) = some (key, v) ∧
          c.Get key =
            ({ c with ll := (key, v) :: c.ll.eraseP (fun p => p.1 == key) },
              some v) ∧
          List.Perm ((c.Get key).1).ll c.ll) := by
  have hw := runOps_WF lenV h
  constructor
  · exact Get_not_mem
  · intro hmem
    obtain ⟨v, hv, heq⟩ := Get_mem hw hmem
    refine ⟨v, hv, heq, ?_⟩
    rw [heq]
    exact (perm_cons_eraseP hv).symm

theorem get_semantics_witness :
    ∃ c evs, runOps List.length 10 false
        [Op.add "a" [1], Op.add "b" [2]] = some (c, evs) ∧
      (("a" ∉ c.cache → c.Get "a" = (c, none)) ∧
        ("a" ∈ c.cache →
          ∃ v, c.ll.find? (fun p => p.1 == "a") = some ("a", v) ∧
            c.Get "a" =
              ({ c with ll := ("a", v) :: c.ll.eraseP (fun p => p.1 == "a") },
                some v) ∧
            List.Perm ((c.Get "a").1).ll c.ll)) :=
  ⟨_, _, rfl, get_semantics List.length 10 false
    [Op.add "a" [1], Op.add "b" [2]] _ _ rfl "a"⟩

theorem filter_keys_nil {k : String} {l : List (String × V)}
    (h : k ∉ keysOf l) : l.filter (fun p => p.1 == k) = [] := by
  induction l with
  | nil => rfl
  | cons a t ih =>
      rw [keysOf_cons, List.mem_cons] at h
      push_neg at h
      rw [List.filter_cons_of_neg (by simp; exact fun hk => h.1 hk.symm),
        ih h.2]

theorem filter_not_keys_id {k : String} {l : List (String × V)}
    (h : k ∉ keysOf l) : l.filter (fun p => !(p.1 == k)) = l := by
  induction l with
  | nil => rfl
  | cons a t ih =>
      rw [keysOf_cons, List.mem_cons] at h
      push_neg at h
      rw [List.filter_cons_of_pos (by simp; exact fun hk => h.1 hk.symm),
        ih h.2]

/-- C6 counterexample.  With `maxBytes = 1`, `Add("a", v1)` followed by
`Add("a", v2)` for 5-byte values leaves no entry for `"a"` at all: each
`Add` makes the entry over budget and the eviction loop removes it, so
"exactly one entry for k with value v2" fails. -/
theorem update_law_counterexample :
    ∃ c1 c2,
      ((New (List Nat) 1 false).Add List.length "a" [0, 0, 0, 0, 0]).1 =
          some c1 ∧
        (c1.Add List.length "a" [9, 9, 9, 9, 9]).1 = some c2 ∧
        c2.ll.filter (fun p => p.1 == "a") = [] :=
  ⟨_, _, rfl, rfl, rfl⟩

/-- C6 amended.  The update law holds whenever no automatic eviction can
intervene — in particular on any reachable cache with `maxBytes = 0`:
`Add(k, v1)` then `Add(k, v2)` leaves exactly one entry for `k`, with
value `v2`, and `k`'s contribution to `nbytes` is `len(k) + v2.Len()`
(counted once), the rest of `nbytes` being the other entries' sizes.
(With `maxBytes > 0` the second `Add` may evict `k` itself — see the
counterexample.) -/
theorem update_law (lenV : V → Nat) (cb : Bool) (ops : List (Op V))
    (c : Cache V) (evs : List (String × V))
    (h : runOps lenV 0 cb ops = some (c, evs)) (k : String) (v1 v2 : V) :
    ∃ c1 c2, (c.Add lenV k v1).1 = some c1 ∧ (c1.Add lenV k v2).1 = some c2 ∧
      c2.ll.filter (fun p => p.1 == k) = [(k, v2)] ∧
      c2.nbytes = (goLen k + (lenV v2 : Int)) +
        sumBytes lenV (c2.ll.filter (fun p => !(p.1 == k))) := by
  have hw := runOps_WF lenV h
  have h0 : c.maxBytes = 0 := (runOps_fields lenV h).1
  have hadd1 := Add_zero lenV h0 k v1
  have hw1 : WF lenV (addRaw lenV c k v1) := WF_addRaw lenV hw k v1
  have h01 : (addRaw lenV c k v1).maxBytes = 0 :=
    ((addRaw_fields lenV c k v1).1).trans h0
  have hadd2 := Add_zero lenV h01 k v2
  refine ⟨addRaw lenV c k v1, addRaw lenV (addRaw lenV c k v1) k v2,
    by rw [hadd1], by rw [hadd2], ?_⟩
  have hshape : ∃ rest, (addRaw lenV c k v1).ll = (k, v1) :: rest ∧
      k ∈ (addRaw lenV c k v1).cache := by
    by_cases hmem : k ∈ c.cache
    · obtain ⟨v, hv⟩ := find?_key_of_mem ((hw.2.1.mem_iff).1 hmem)
      rw [addRaw_of_find v1 hmem hv]
      exact ⟨_, rfl, hmem⟩
    · rw [addRaw_not_mem v1 hmem]
      exact ⟨_, rfl, List.mem_cons_self _ _⟩
  obtain ⟨rest, hll1, hmem1⟩ := hshape
  have hknotin : k ∉ keysOf rest := by
    have := hw1.1
    rw [hll1, keysOf_cons] at this
    exact (List.nodup_cons.1 this).1
  have hfind1 : (addRaw lenV c k v1).ll.find? (fun p => p.1 == k) =
      some (k, v1) := by
    rw [hll1, List.find?_cons_of_pos _ (by simp)]
  have hc2 : addRaw lenV (addRaw lenV c k v1) k v2 =
      { (addRaw lenV c k v1) with
          ll := (k, v2) ::
            (addRaw lenV c k v1).ll.eraseP (fun p => p.1 == k),
          nbytes := (addRaw lenV c k v1).nbytes +
            ((lenV v2 : Int) - (lenV v1 : Int)) } :=
    addRaw_of_find v2 hmem1 hfind1
  have herase : (addRaw lenV c k v1).ll.eraseP (fun p => p.1 == k) = rest := by
    rw [hll1, List.eraseP_cons_of_pos (by simp)]
  have hll2 : (addRaw lenV (addRaw lenV c k v1) k v2).ll = (k, v2) :: rest := by
    rw [hc2, herase]
  constructor
  · rw [hll2, List.filter_cons_of_pos (by simp), filter_keys_nil hknotin]
  · have hw2 : WF lenV (addRaw lenV (addRaw lenV c k v1) k v2) :=
      WF_addRaw lenV hw1 k v2
    have hsum := hw2.2.2
    rw [hll2, sumBytes_cons] at hsum
    rw [hll2, List.filter_cons_of_neg (by simp), filter_not_keys_id hknotin]
    rw [hsum]
    rfl

theorem update_law_witness :
    ∃ c evs, runOps List.length 0 false [Op.add "x" [5]] = some (c, evs) ∧
      ∃ c1 c2, (c.Add List.length "k" [1]).1 = some c1 ∧
        (c1.Add List.length "k" [2, 3]).1 = some c2 ∧
        c2.ll.filter (fun p => p.1 == "k") = [("k", [2, 3])] ∧
        c2.nbytes = (goLen "k" + (List.length [2, 3] : Int)) +
          sumBytes List.length (c2.ll.filter (fun p => !(p.1 == "k"))) :=
  ⟨_, _, rfl, update_law List.length false [Op.add "x" [5]] _ _ rfl
    "k" [1] [2, 3]⟩

theorem dropLast_cons_ne {A : Type} (a : A) {l : List A} (h : l ≠ []) :
    (a :: l).dropLast = a :: l.dropLast := by
  cases l with
  | nil => exact absurd rfl h
  | cons b t => rfl

theorem RemoveOldest_split (lenV : V → Nat) {c : Cache V}
    {l : List (String × V)} {m : String × V} (h : c.ll = l ++ [m]) :
    c.RemoveOldest lenV =
      ({ c with ll := l, cache := c.cache.erase m.1,
                nbytes := c.nbytes - (goLen m.1 + (lenV m.2 : Int)) }, [m]) := by
  simp [Cache.RemoveOldest, h, List.getLast?_concat, List.dropLast_concat]

/-- If the front entry `m` alone is over a positive budget, the eviction
loop removes every entry, back to front, ending on the empty cache with
zero bytes; the event trace is the whole list reversed (LRU first, the
front entry `m` last). -/
theorem runEvict_evict_all (lenV : V → Nat) :
    ∀ (n fuel : Nat) (c : Cache V) (m : String × V) (l : List (String × V)),
      c.ll = m :: l → l.length = n → n + 1 ≤ fuel → WF lenV c →
      0 < c.maxBytes → c.maxBytes < entrySize lenV m →
      ∃ c', runEvict lenV fuel c = (some c', (m :: l).reverse) ∧
        c'.ll = [] ∧ c'.nbytes = 0 ∧ c'.cache = [] ∧
        c'.maxBytes = c.maxBytes ∧ c'.hasOnEvicted = c.hasOnEvicted := by
  intro n
  induction n with
  | zero =>
      intro fuel c m l hll hlen hfuel hw hpos hover
      have hl : l = [] := List.length_eq_zero.1 hlen
      subst hl
      rcases fuel with _ | f
      · omega
      have hsum : c.nbytes = entrySize lenV m := by
        rw [hw.2.2, hll, sumBytes_cons, sumBytes_nil, add_zero]
      have hg : c.maxBytes ≠ 0 ∧ c.maxBytes < c.nbytes :=
        ⟨ne_of_gt hpos, by rw [hsum]; exact hover⟩
      have hm : c.ll = [] ++ [m] := hll
      have hnb0 : c.nbytes - (goLen m.1 + (lenV m.2 : Int)) = 0 := by
        rw [hsum, entrySize]; ring
      have hcache : c.cache.erase m.1 = [] := by
        have h1 : List.Perm (c.cache.erase m.1) ((keysOf c.ll).erase m.1) :=
          (hw.2.1).erase m.1
        rw [hll, keysOf_cons, keysOf_nil, List.erase_cons_head] at h1
        exact h1.eq_nil
      refine ⟨{ c with
          ll := [],
          cache := c.cache.erase m.1,
          nbytes := c.nbytes - (goLen m.1 + (lenV m.2 : Int)) },
        ?_, rfl, hnb0, hcache, rfl, rfl⟩
      rw [runEvict_succ_of_guard_true hg, RemoveOldest_split lenV hm]
      have hg2 : ¬(({ c with
          ll := ([] : List (String × V)),
          cache := c.cache.erase m.1,
          nbytes := c.nbytes - (goLen m.1 + (lenV m.2 : Int)) }).maxBytes ≠ 0 ∧
          ({ c with
            ll := ([] : List (String × V)),
            cache := c.cache.erase m.1,
            nbytes := c.nbytes -
              (goLen m.1 + (lenV m.2 : Int)) }).maxBytes <
          ({ c with
            ll := ([] : List (String × V)),
            cache := c.cache.erase m.1,
            nbytes := c.nbytes -
              (goLen m.1 + (lenV m.2 : Int)) }).nbytes) := by
        rintro ⟨-, hlt⟩
        have hlt' : c.maxBytes < c.nbytes - (goLen m.1 + (lenV m.2 : Int)) := hlt
        rw [hnb0] at hlt'
        exact absurd (hpos.trans hlt') (lt_irrefl 0)
      rw [runEvict_of_guard_false hg2]
      rfl
  | succ n ih =>
      intro fuel c m l hll hlen hfuel hw hpos hover
      have hlne : l ≠ [] := by
        intro h
        rw [h] at hlen
        cases hlen
      rcases fuel with _ | f
      · omega
      have hg : c.maxBytes ≠ 0 ∧ c.maxBytes < c.nbytes := by
        refine ⟨ne_of_gt hpos, lt_of_lt_of_le hover ?_⟩
        rw [hw.2.2]
        exact entrySize_le_sumBytes lenV
          (by rw [hll]; exact List.mem_cons_self m l)
      have hm' : m :: l = (m :: l.dropLast) ++ [l.getLast hlne] :=
        (congrArg (List.cons m) (List.dropLast_append_getLast hlne)).symm
      have hm : c.ll = (m :: l.dropLast) ++ [l.getLast hlne] := by
        rw [hll]
        exact hm'
      rw [runEvict_succ_of_guard_true hg, RemoveOldest_split lenV hm]
      have hw2 : WF lenV ({ c with
          ll := m :: l.dropLast,
          cache := c.cache.erase (l.getLast hlne).1,
          nbytes := c.nbytes -
            (goLen (l.getLast hlne).1 + (lenV (l.getLast hlne).2 : Int)) }) := by
        have h1 := WF_RemoveOldest lenV hw
        rw [RemoveOldest_split lenV hm] at h1
        exact h1
      obtain ⟨c', hrun, h1, h2, h3, h4, h5⟩ :=
        ih f ({ c with
            ll := m :: l.dropLast,
            cache := c.cache.erase (l.getLast hlne).1,
            nbytes := c.nbytes -
              (goLen (l.getLast hlne).1 + (lenV (l.getLast hlne).2 : Int)) })
          m l.dropLast rfl
          (by rw [List.length_dropLast, hlen]; rfl) (by omega) hw2 hpos hover
      refine ⟨c', ?_, h1, h2, h3, h4, h5⟩
      rw [hrun]
      have hrev : (m :: l).reverse =
          l.getLast hlne :: (m :: l.dropLast).reverse := by
        conv_lhs => rw [hm']
        rw [List.reverse_append]
        rfl
      rw [hrev]
      rfl

/-- C9.  Oversized-entry resolution: on any reachable cache with
`maxBytes > 0`, an `Add` of a fresh key whose own size
`len(key) + value.Len()` exceeds `maxBytes` makes the eviction loop
remove every entry including the one just inserted.  The events (one
callback invocation each, when configured) occur in least-recently-used
first order with the new entry last; `Add` returns an empty cache with
`nbytes = 0` and an empty map. -/
theorem oversized_add (lenV : V → Nat) (mb : Int) (cb : Bool)
    (ops : List (Op V)) (c : Cache V) (evs : List (String × V))
    (h : runOps lenV mb cb ops = some (c, evs)) (hmb : 0 < mb)
    (key : String) (value : V) (hnew : key ∉ c.cache)
    (hover : mb < goLen key + (lenV value : Int)) :
    ∃ c', c.Add lenV key value =
        (some c', c.ll.reverse ++ [(key, value)]) ∧
      c'.ll = [] ∧ c'.nbytes = 0 ∧ c'.cache = [] ∧
      c'.maxBytes = mb ∧ c'.hasOnEvicted = cb ∧
      callbackCalls c (c.ll.reverse ++ [(key, value)]) =
        (if cb then c.ll.reverse ++ [(key, value)] else []) := by
  have hw := runOps_WF lenV h
  obtain ⟨hmbc, hcbc⟩ := runOps_fields lenV h
  have hraw : addRaw lenV c key value =
      { c with
          ll := (key, value) :: c.ll,
          cache := key :: c.cache,
          nbytes := c.nbytes + (goLen key + (lenV value : Int)) } :=
    addRaw_not_mem value hnew
  have hw1 : WF lenV (addRaw lenV c key value) := WF_addRaw lenV hw key value
  have hll1 : (addRaw lenV c key value).ll = (key, value) :: c.ll := by
    rw [hraw]
  have hmb1 : (addRaw lenV c key value).maxBytes = mb :=
    ((addRaw_fields lenV c key value).1).trans hmbc
  have hhoe1 : (addRaw lenV c key value).hasOnEvicted = cb :=
    ((addRaw_fields lenV c key value).2).trans hcbc
  obtain ⟨c', hrun, h1, h2, h3, h4, h5⟩ :=
    runEvict_evict_all lenV c.ll.length
      ((addRaw lenV c key value).ll.length + 1)
      (addRaw lenV c key value) (key, value) c.ll hll1 rfl
      (by rw [hll1]; simp) hw1 (by rw [hmb1]; exact hmb)
      (by rw [hmb1]; exact hover)
  refine ⟨c', ?_, h1, h2, h3, h4.trans hmb1, h5.trans hhoe1, ?_⟩
  · rw [Add_eq, hrun, List.reverse_cons]
  · rw [callbackCalls, hcbc]

theorem oversized_add_witness :
    ∃ c evs, runOps List.length 3 true [Op.add "a" [1]] = some (c, evs) ∧
      ∃ c', c.Add List.length "bb" [5, 5] =
          (some c', c.ll.reverse ++ [("bb", [5, 5])]) ∧
        c'.ll = [] ∧ c'.nbytes = 0 ∧ c'.cache = [] ∧
        c'.maxBytes = 3 ∧ c'.hasOnEvicted = true ∧
        callbackCalls c (c.ll.reverse ++ [("bb", [5, 5])]) =
          (if true then c.ll.reverse ++ [("bb", [5, 5])] else []) :=
  ⟨_, _, rfl, oversized_add List.length 3 true [Op.add "a" [1]] _ _ rfl
    (by decide) "bb" [5, 5] (by decide) (by decide)⟩

/-! ## The recency ghost invariant -/

theorem applyOpT_add (lenV : V → Nat) (s : TState V) (k : String) (v : V) :
    applyOpT lenV s (Op.add k v) =
      match (s.c.Add lenV k v).1 with
      | some c' => some ⟨c', (k, s.now) :: s.touch, s.now + 1⟩
      | none => none := rfl

theorem applyOpT_get (lenV : V → Nat) (s : TState V) (k : String) :
    applyOpT lenV s (Op.get k) =
      match (s.c.Get k).2 with
      | some _ => some ⟨(s.c.Get k).1, (k, s.now) :: s.touch, s.now + 1⟩
      | none => some ⟨(s.c.Get k).1, s.touch, s.now + 1⟩ := rfl

theorem runFromT_cons (lenV : V → Nat) (s : TState V) (op : Op V)
    (ops : List (Op V)) :
    runFromT lenV s (op :: ops) =
      match applyOpT lenV s op with
      | some s' => runFromT lenV s' ops
      | none => none := rfl

theorem touchD_cons_self (t : List (String × Nat)) (k : String) (n : Nat) :
    touchD ((k, n) :: t) k = n := by
  simp only [touchD]
  rw [List.find?_cons_of_pos _ (by simp)]

theorem touchD_cons_ne (t : List (String × Nat)) {k k' : String} (n : Nat)
    (h : k' ≠ k) : touchD ((k, n) :: t) k' = touchD t k' := by
  simp only [touchD]
  rw [List.find?_cons_of_neg _ (by simp; exact fun he => h he.symm)]

theorem runEvict_ll_sublist (lenV : V → Nat) :
    ∀ (fuel : Nat) {c c' : Cache V}, (runEvict lenV fuel c).1 = some c' →
      c'.ll.Sublist c.ll := by
  intro fuel
  induction fuel with
  | zero =>
      intro c c' h
      by_cases hg : c.maxBytes ≠ 0 ∧ c.maxBytes < c.nbytes
      · rw [runEvict_zero_of_guard_true hg] at h; cases h
      · rw [runEvict_of_guard_false hg] at h
        cases h; exact List.Sublist.refl _
  | succ fuel ih =>
      intro c c' h
      by_cases hg : c.maxBytes ≠ 0 ∧ c.maxBytes < c.nbytes
      · rw [runEvict_succ_of_guard_true hg] at h
        have h1 := ih h
        rw [RemoveOldest_ll] at h1
        exact h1.trans (List.dropLast_sublist c.ll)
      · rw [runEvict_of_guard_false hg] at h
        cases h; exact List.Sublist.refl _

theorem pairwise_touch_cons {t : List (String × Nat)} {k : String} {n : Nat}
    {l : List (String × V)} (hk : ∀ x ∈ l, x.1 ≠ k)
    (h : List.Pairwise (fun a b => touchD t b.1 < touchD t a.1) l) :
    List.Pairwise
      (fun a b => touchD ((k, n) :: t) b.1 < touchD ((k, n) :: t) a.1) l := by
  refine List.Pairwise.imp_of_mem ?_ h
  intro a b ha hb hab
  rw [touchD_cons_ne t n (hk a ha), touchD_cons_ne t n (hk b hb)]
  exact hab

theorem addRaw_shape (lenV : V → Nat) {c : Cache V} (hw : WF lenV c)
    (k : String) (v : V) :
    ∃ rest, (addRaw lenV c k v).ll = (k, v) :: rest ∧
      rest.Sublist c.ll ∧ k ∉ keysOf rest := by
  by_cases hmem : k ∈ c.cache
  · obtain ⟨v0, hv0⟩ := find?_key_of_mem ((hw.2.1.mem_iff).1 hmem)
    refine ⟨c.ll.eraseP (fun p => p.1 == k),
      by rw [addRaw_of_find v hmem hv0], List.eraseP_sublist _, ?_⟩
    have h1 := (WF_addRaw lenV hw k v).1
    rw [addRaw_of_find v hmem hv0] at h1
    have h2 : (keysOf ((k, v) :: c.ll.eraseP (fun p => p.1 == k))).Nodup := h1
    rw [keysOf_cons] at h2
    exact (List.nodup_cons.1 h2).1
  · refine ⟨c.ll, by rw [addRaw_not_mem v hmem], List.Sublist.refl _, ?_⟩
    exact fun hk => hmem ((hw.2.1.mem_iff).2 hk)

/-- Pushing a freshly-stamped key to the front preserves the recency
invariant for any state whose list is contained in `(k, v) :: rest`. -/
theorem RInv_front (s : TState V) {c' : Cache V} {k : String} {v : V}
    {rest : List (String × V)}
    (hll : c'.ll.Sublist ((k, v) :: rest)) (hsub : rest.Sublist s.c.ll)
    (hknot : k ∉ keysOf rest) (hr : RInv s) :
    RInv ⟨c', (k, s.now) :: s.touch, s.now + 1⟩ := by
  obtain ⟨hpair, hbound⟩ := hr
  have hkne : ∀ x ∈ rest, x.1 ≠ k := by
    intro x hx he
    exact hknot (he ▸ List.mem_map_of_mem Prod.fst hx)
  have hpair1 : List.Pairwise
      (fun a b => touchD ((k, s.now) :: s.touch) b.1 <
        touchD ((k, s.now) :: s.touch) a.1) ((k, v) :: rest) := by
    rw [List.pairwise_cons]
    constructor
    · intro b hb
      have hb' : b ∈ s.c.ll := List.Sublist.mem hb hsub
      have hbk : b.1 ≠ k := hkne b hb
      rw [touchD_cons_ne _ _ hbk]
      have hhead : touchD ((k, s.now) :: s.touch) (k, v).1 = s.now :=
        touchD_cons_self _ _ _
      rw [hhead]
      exact hbound b hb'
    · exact pairwise_touch_cons hkne (hpair.sublist hsub)
  refine ⟨hpair1.sublist hll, ?_⟩
  intro kv hkv
  have hkv1 : kv ∈ (k, v) :: rest := List.Sublist.mem hkv hll
  rcases List.mem_cons.1 hkv1 with rfl | hkv2
  · have hhead : touchD ((k, s.now) :: s.touch) (k, v).1 = s.now :=
      touchD_cons_self _ _ _
    rw [hhead]
    exact Nat.lt_succ_self _
  · rw [touchD_cons_ne _ _ (hkne kv hkv2)]
    exact Nat.lt_succ_of_lt (hbound kv (List.Sublist.mem hkv2 hsub))

theorem TWF_applyOpT (lenV : V → Nat) {s s' : TState V} {op : Op V}
    (hw : WF lenV s.c) (hr : RInv s) (h : applyOpT lenV s op = some s') :
    WF lenV s'.c ∧ RInv s' := by
  cases op with
  | add k v =>
      rcases hadd : (s.c.Add lenV k v).1 with _ | c'
      · rw [applyOpT_add, hadd] at h; cases h
      · rw [applyOpT_add, hadd] at h
        cases h
        refine ⟨WF_Add lenV hw hadd, ?_⟩
        obtain ⟨rest, hshape, hsub, hknot⟩ := addRaw_shape lenV hw k v
        have hre : (runEvict lenV ((addRaw lenV s.c k v).ll.length + 1)
            (addRaw lenV s.c k v)).1 = some c' := by
          rw [← Add_eq]; exact hadd
        have hsubll : c'.ll.Sublist ((k, v) :: rest) := by
          have h2 := runEvict_ll_sublist lenV _ hre
          rw [hshape] at h2
          exact h2
        exact RInv_front s hsubll hsub hknot hr
  | get k =>
      rcases hget : (s.c.Get k).2 with _ | v
      · rw [applyOpT_get, hget] at h
        cases h
        have hc : (s.c.Get k).1 = s.c := by
          by_cases hmem : k ∈ s.c.cache
          · obtain ⟨v0, -, heq⟩ := Get_mem hw hmem
            rw [heq] at hget
            cases hget
          · rw [Get_not_mem hmem]
        refine ⟨by rw [hc]; exact hw, ?_⟩
        obtain ⟨hpair, hbound⟩ := hr
        refine ⟨by rw [hc]; exact hpair, ?_⟩
        intro kv hkv
        rw [hc] at hkv
        exact Nat.lt_succ_of_lt (hbound kv hkv)
      · rw [applyOpT_get, hget] at h
        cases h
        have hmem : k ∈ s.c.cache := by
          by_contra hmem
          rw [Get_not_mem hmem] at hget
          cases hget
        obtain ⟨v0, hv0, heq⟩ := Get_mem hw hmem
        refine ⟨WF_Get lenV hw k, ?_⟩
        have hll : ((s.c.Get k).1).ll =
            (k, v0) :: s.c.ll.eraseP (fun p => p.1 == k) := by
          rw [heq]
        have hknot : k ∉ keysOf (s.c.ll.eraseP (fun p => p.1 == k)) := by
          have h1 := (WF_Get lenV hw k).1
          rw [hll, keysOf_cons] at h1
          exact (List.nodup_cons.1 h1).1
        refine RInv_front s (v := v0) ?_ (List.eraseP_sublist _) hknot hr
        rw [hll]
  | removeOldest =>
      cases h
      refine ⟨WF_RemoveOldest lenV hw, ?_⟩
      obtain ⟨hpair, hbound⟩ := hr
      constructor
      · have h1 : ((s.c.RemoveOldest lenV).1).ll.Sublist s.c.ll := by
          rw [RemoveOldest_ll]
          exact List.dropLast_sublist _
        exact hpair.sublist h1
      · intro kv hkv
        have h1 : kv ∈ s.c.ll := by
          have h2 := hkv
          rw [RemoveOldest_ll] at h2
          exact List.Sublist.mem h2 (List.dropLast_sublist _)
        exact Nat.lt_succ_of_lt (hbound kv h1)

theorem TWF_runFromT (lenV : V → Nat) :
    ∀ (ops : List (Op V)) {s s' : TState V},
      WF lenV s.c → RInv s → runFromT lenV s ops = some s' →
      WF lenV s'.c ∧ RInv s' := by
  intro ops
  induction ops with
  | nil =>
      intro s s' hw hr h
      cases h
      exact ⟨hw, hr⟩
  | cons op ops ih =>
      intro s s' hw hr h
      rw [runFromT_cons] at h
      rcases hop : applyOpT lenV s op with _ | s1
      · rw [hop] at h; cases h
      · rw [hop] at h
        obtain ⟨hw1, hr1⟩ := TWF_applyOpT lenV hw hr hop
        exact ih hw1 hr1 h

theorem RInv_initT (V : Type) (mb : Int) (cb : Bool) : RInv (initT V mb cb) :=
  ⟨List.Pairwise.nil, fun _ h => absurd h (List.not_mem_nil _)⟩

/-- C2.  Recency law and `RemoveOldest` semantics.  The run is augmented
with the ghost journal `touch`, which by construction of `applyOpT`
records for each key the time of its most recent `Add` or successful
`Get`.  On every reachable state: `RemoveOldest` on an empty cache leaves
the cache unchanged and emits no event; on a non-empty cache it removes
exactly the back-most node — whose last touch is minimal among all live
entries, i.e. the entry whose most recent `Add` or successful `Get`
occurred earliest — deleting it from the map and subtracting
`len(key) + value.Len()` from `nbytes` in the very state returned with
the callback event (the callback fires only when configured, and only
with the fully updated state). -/
theorem removeOldest_recency (lenV : V → Nat) (mb : Int) (cb : Bool)
    (ops : List (Op V)) (s : TState V)
    (h : runFromT lenV (initT V mb cb) ops = some s) :
    (s.c.ll = [] → s.c.RemoveOldest lenV = (s.c, [])) ∧
      ∀ (hne : s.c.ll ≠ []),
        s.c.RemoveOldest lenV =
          ({ s.c with
              ll := s.c.ll.dropLast,
              cache := s.c.cache.erase (s.c.ll.getLast hne).1,
              nbytes := s.c.nbytes - (goLen (s.c.ll.getLast hne).1 +
                (lenV (s.c.ll.getLast hne).2 : Int)) },
            [s.c.ll.getLast hne]) ∧
        (∀ kv ∈ s.c.ll,
          touchD s.touch (s.c.ll.getLast hne).1 ≤ touchD s.touch kv.1) ∧
        callbackCalls s.c [s.c.ll.getLast hne] =
          (if s.c.hasOnEvicted then [s.c.ll.getLast hne] else []) := by
  obtain ⟨hw, hpair, hbound⟩ :=
    TWF_runFromT lenV ops (WF_New lenV mb cb) (RInv_initT V mb cb) h
  refine ⟨fun hnil => RemoveOldest_nil lenV hnil, ?_⟩
  intro hne
  refine ⟨RemoveOldest_eq lenV hne, ?_, by rw [callbackCalls]⟩
  have hsplit : s.c.ll.dropLast ++ [s.c.ll.getLast hne] = s.c.ll :=
    List.dropLast_append_getLast hne
  rw [← hsplit] at hpair
  obtain ⟨-, -, hcross⟩ := List.pairwise_append.1 hpair
  intro kv hkv
  rw [← hsplit] at hkv
  rcases List.mem_append.1 hkv with hkv1 | hkv1
  · exact le_of_lt (hcross kv hkv1 _ (List.mem_singleton_self _))
  · rcases List.mem_singleton.1 hkv1 with rfl
    exact le_refl _

theorem removeOldest_recency_witness :
    ∃ s, runFromT List.length (initT (List Nat) 100 true)
        [Op.add "a" [1], Op.add "b" [2], Op.get "a"] = some s ∧
      ((s.c.ll = [] → s.c.RemoveOldest List.length = (s.c, [])) ∧
        ∀ (hne : s.c.ll ≠ []),
          s.c.RemoveOldest List.length =
            ({ s.c with
                ll := s.c.ll.dropLast,
                cache := s.c.cache.erase (s.c.ll.getLast hne).1,
                nbytes := s.c.nbytes - (goLen (s.c.ll.getLast hne).1 +
                  (List.length (s.c.ll.getLast hne).2 : Int)) },
              [s.c.ll.getLast hne]) ∧
          (∀ kv ∈ s.c.ll,
            touchD s.touch (s.c.ll.getLast hne).1 ≤ touchD s.touch kv.1) ∧
          callbackCalls s.c [s.c.ll.getLast hne] =
            (if s.c.hasOnEvicted then [s.c.ll.getLast hne] else [])) :=
  ⟨_, rfl, removeOldest_recency List.length 100 true
    [Op.add "a" [1], Op.add "b" [2], Op.get "a"] _ rfl⟩

/-! ## ByteView: the copy law -/

theorem readCell_alloc_fresh (h : Heap) (d : List Nat) :
    readCell (alloc h d).1 (alloc h d).2 = d := by
  simp only [readCell, alloc]
  rw [List.getD_eq_getElem?_getD, List.getElem?_concat_length]
  rfl

theorem readCell_alloc_old (h : Heap) (d : List Nat) {i : Nat}
    (hi : i < h.cells.length) : readCell (alloc h d).1 i = readCell h i := by
  simp only [readCell, alloc]
  rw [List.getD_eq_getElem?_getD, List.getD_eq_getElem?_getD,
    List.getElem?_append_left hi]

theorem readCell_write_ne (h : Heap) {i j : Nat} (d : List Nat)
    (hne : i ≠ j) : readCell (writeCell h i d) j = readCell h j := by
  simp only [readCell, writeCell]
  rw [List.getD_eq_getElem?_getD, List.getD_eq_getElem?_getD,
    List.getElem?_set_ne hne]

/-- C10.  ByteView copy law: `ByteSlice` returns a freshly allocated slice
(a cell distinct from the wrapped one) whose contents equal the wrapped
bytes, so mutating the returned slice (`writeCell`) changes nothing that a
subsequent `Len`, `ByteSlice`, or `String` on the same `ByteView`
observes. -/
theorem byteview_copy_law (h : Heap) (v : ByteView)
    (hv : v.b < h.cells.length) (data : List Nat) :
    (ByteView.ByteSlice h v).2 ≠ v.b ∧
      readCell (ByteView.ByteSlice h v).1 (ByteView.ByteSlice h v).2 =
        ByteView.String h v ∧
      ByteView.Len
          (writeCell (ByteView.ByteSlice h v).1
            (ByteView.ByteSlice h v).2 data) v =
        ByteView.Len h v ∧
      ByteView.String
          (writeCell (ByteView.ByteSlice h v).1
            (ByteView.ByteSlice h v).2 data) v =
        ByteView.String h v ∧
      readCell
          (ByteView.ByteSlice
            (writeCell (ByteView.ByteSlice h v).1
              (ByteView.ByteSlice h v).2 data) v).1
          (ByteView.ByteSlice
            (writeCell (ByteView.ByteSlice h v).1
              (ByteView.ByteSlice h v).2 data) v).2 =
        ByteView.String h v := by
  have hp : (ByteView.ByteSlice h v).2 = h.cells.length := rfl
  have hne : (ByteView.ByteSlice h v).2 ≠ v.b := by
    rw [hp]
    exact (ne_of_lt hv).symm
  have hmain : readCell
      (writeCell (ByteView.ByteSlice h v).1
        (ByteView.ByteSlice h v).2 data) v.b = readCell h v.b := by
    rw [readCell_write_ne _ data hne]
    exact readCell_alloc_old h _ hv
  refine ⟨hne, readCell_alloc_fresh h _, ?_, hmain, ?_⟩
  · show (readCell (writeCell (ByteView.ByteSlice h v).1
        (ByteView.ByteSlice h v).2 data) v.b).length =
      (readCell h v.b).length
    rw [hmain]
  · show readCell
        (alloc
          (writeCell (ByteView.ByteSlice h v).1
            (ByteView.ByteSlice h v).2 data)
          (readCell
            (writeCell (ByteView.ByteSlice h v).1
              (ByteView.ByteSlice h v).2 data) v.b)).1
        (alloc
          (writeCell (ByteView.ByteSlice h v).1
            (ByteView.ByteSlice h v).2 data)
          (readCell
            (writeCell (ByteView.ByteSlice h v).1
              (ByteView.ByteSlice h v).2 data) v.b)).2 = readCell h v.b
    rw [readCell_alloc_fresh]
    exact hmain

theorem byteview_copy_law_witness :
    (ByteView.mk 0).b < (Heap.mk [[1, 2, 3]]).cells.length ∧
      ((ByteView.ByteSlice (Heap.mk [[1, 2, 3]]) (ByteView.mk 0)).2 ≠
          (ByteView.mk 0).b ∧
        readCell (ByteView.ByteSlice (Heap.mk [[1, 2, 3]]) (ByteView.mk 0)).1
            (ByteView.ByteSlice (Heap.mk [[1, 2, 3]]) (ByteView.mk 0)).2 =
          ByteView.String (Heap.mk [[1, 2, 3]]) (ByteView.mk 0) ∧
        ByteView.Len
            (writeCell
              (ByteView.ByteSlice (Heap.mk [[1, 2, 3]]) (ByteView.mk 0)).1
              (ByteView.ByteSlice (Heap.mk [[1, 2, 3]]) (ByteView.mk 0)).2
              [9]) (ByteView.mk 0) =
          ByteView.Len (Heap.mk [[1, 2, 3]]) (ByteView.mk 0) ∧
        ByteView.String
            (writeCell
              (ByteView.ByteSlice (Heap.mk [[1, 2, 3]]) (ByteView.mk 0)).1
              (ByteView.ByteSlice (Heap.mk [[1, 2, 3]]) (ByteView.mk 0)).2
              [9]) (ByteView.mk 0) =
          ByteView.String (Heap.mk [[1, 2, 3]]) (ByteView.mk 0) ∧
        readCell
            (ByteView.ByteSlice
              (writeCell
                (ByteView.ByteSlice (Heap.mk [[1, 2, 3]]) (ByteView.mk 0)).1
                (ByteView.ByteSlice (Heap.mk [[1, 2, 3]]) (ByteView.mk 0)).2
                [9]) (ByteView.mk 0)).1
            (ByteView.ByteSlice
              (writeCell
                (ByteView.ByteSlice (Heap.mk [[1, 2, 3]]) (ByteView.mk 0)).1
                (ByteView.ByteSlice (Heap.mk [[1, 2, 3]]) (ByteView.mk 0)).2
                [9]) (ByteView.mk 0)).2 =
          ByteView.String (Heap.mk [[1, 2, 3]]) (ByteView.mk 0)) :=
  ⟨by decide,
    byteview_copy_law (Heap.mk [[1, 2, 3]]) (ByteView.mk 0) (by decide) [9]⟩

end GoCache